import Mathlib

/-!
Verification of the heron python DSL graph-compilation core
(`heronpy/dsl/impl/streamlet_impl.py`).

Python values, error taxonomy, and the node data model are embedded
shallowly; the compilation pass `Streamlet._build` is embedded as a
fuel-indexed state-passing function over an explicit heap of node
records (Python objects are mutable and shared, so node identity is a
`Nat` id and the heap maps ids to records).  `Option.none` as an overall
result means the recursion did not terminate within the given fuel
(which on the Python side corresponds to unbounded recursion through a
cyclic parent chain); `some` results carry the final heap, the
`stage_names` set (as a list), the emissions performed on the
`TopologyBuilder`, and the exception raised, if any.
-/

/-- A small universe of Python values, enough to model the arguments the
source code inspects with `isinstance` (job names, configurations, and
the unvalidated values flowing through the `name` / `num_partitions`
property setters). -/
inductive PyVal where
  | none
  | str (s : String)
  | int (n : Int)
  | list (elems : List Int)
  | dict (entries : List (String × Int))
deriving DecidableEq

/-- Model of `isinstance(x, str)`. -/
def isStr : PyVal → Bool
  | PyVal.str _ => true
  | _ => false

/-- Model of `isinstance(x, dict)`. -/
def isDict : PyVal → Bool
  | PyVal.dict _ => true
  | _ => false

/-- The operator variants of the DSL (the concrete `Streamlet`
subclasses). -/
inductive Kind where
  | source
  | map
  | flatMap
  | filter
  | sample
  | repartition
  | join
  | reduceByKeyAndWindow
deriving DecidableEq

/-- Label used for default stage names of each variant. -/
def kindLabel : Kind → String
  | Kind.source => "source"
  | Kind.map => "map"
  | Kind.flatMap => "flatmap"
  | Kind.filter => "filter"
  | Kind.sample => "sample"
  | Kind.repartition => "repartition"
  | Kind.join => "join"
  | Kind.reduceByKeyAndWindow => "reduce"

/-- `TimeWindow = namedtuple('TimeWindow', 'duration sliding_interval')`. -/
structure TimeWindow where
  duration : Int
  sliding_interval : Int
deriving DecidableEq

/-- The error taxonomy.  The source raises bare `RuntimeError`s with
distinguishing messages; each constructor stands for one of those raise
sites (`duplicateStageName` for "duplicated stage name %s",
`invalidJobName` for "Job Name has to be a string", and
`invalidConfiguration` for "config has to be a dict").
`configurationError` stands for the `ConfigurationError` the spec
ascribes to the `name` / `num_partitions` setters; no code path produces
it. -/
inductive Err where
  | invalidJobName
  | invalidConfiguration
  | duplicateStageName (nm : String)
  | configurationError
deriving DecidableEq

/-- Is an `Except` result an error? -/
def isErr : Except Err α → Bool
  | Except.error _ => true
  | Except.ok _ => false

/-- One pipeline-stage object.  `stage_name`, `parallelism`, `parents`
mirror the `_stage_name`, `_parallelism`, `_parents` attributes that
`_build` reads and writes; `pname` and `num_partitions` mirror the
`_name` and `_num_partitions` attributes that `Streamlet.__init__` sets
and the public `name` / `num_partitions` properties access; `window` and
`func` carry the operator parameters verbatim (functions are opaque
tokens). -/
structure NodeData where
  kind : Kind
  parents : List Nat
  stage_name : Option String
  parallelism : Option Int
  window : Option TimeWindow
  func : Option Nat
  pname : PyVal
  num_partitions : PyVal
deriving DecidableEq

/-- The heap of node objects, by identity. -/
abbrev Heap : Type := Nat → Option NodeData

/-- Write one node record (Python attribute mutation). -/
def hset (h : Heap) (i : Nat) (d : NodeData) : Heap :=
  fun j => if j = i then some d else h j

/-- `parent._parallelism` as read by `_calculate_parallelism`. -/
def parOf (h : Heap) (p : Nat) : Option Int :=
  (h p).bind NodeData.parallelism

/-- The loop of `_calculate_parallelism`, abstracted over the lookup:
start from `1` and replace the accumulator by any strictly larger
parent value (an unresolved `None` parent compares as not-larger, as in
the source's Python-2 comparison semantics). -/
def calcFold (f : Nat → Option Int) (a : Int) (ps : List Nat) : Int :=
  ps.foldl (fun acc p =>
    match f p with
    | some v => if acc < v then v else acc
    | Option.none => acc) a

/-- `Streamlet._calculate_parallelism`: `parallelism = 1`, then for each
parent, `if parent._parallelism > parallelism: parallelism =
parent._parallelism`. -/
def calcParallelism (h : Heap) (ps : List Nat) : Int :=
  calcFold (parOf h) 1 ps

/-- Modelled from the spec: the variant-specific `_build_this`
implementations live in operator modules that are not part of this
source fragment; per the spec they wire the stage to its parents'
resolved names, in parent order. -/
def upstreamNames (h : Heap) (ps : List Nat) : List String :=
  ps.map (fun p =>
    match h p with
    | some pd => pd.stage_name.getD ""
    | Option.none => "")

/-- Scan for the first unused default name `base ++ i`, `i` counting up
from the given start; the scan depth is one more than the number of
taken names, so some candidate is always free. -/
def freshNameGo (base : String) (existing : List String) : Nat → Nat → String
  | 0, i => base ++ toString i
  | n + 1, i =>
      if (base ++ toString i) ∈ existing then freshNameGo base existing n (i + 1)
      else base ++ toString i

/-- Modelled from the spec: the `_calculate_stage_name` overrides live
in the operator modules missing from this fragment; per the spec the
default name is deterministic from the variant tag and an incrementing
counter, avoiding names already assigned in this pass. -/
def calcStageName (k : Kind) (existing : List String) : String :=
  freshNameGo (kindLabel k) existing (existing.length + 1) 1

/-- One stage registration on the `TopologyBuilder` (the observable
effect of `_build_this`): the node's identity, resolved name and
parallelism, variant, and its upstream references. -/
structure Emission where
  nodeId : Nat
  name : String
  parallelism : Int
  kind : Kind
  upstream : List String
deriving DecidableEq

/-- State produced by a `_build` call: final heap, `stage_names`,
emissions so far, and the exception raised (`none` = returned
normally). -/
abbrev BuildRes : Type := Heap × List String × List Emission × Option Err

/-- The body of `Streamlet._build` after the parent loop, line by line:
resolve `_parallelism` if unset, resolve `_stage_name` if unset, write
both attributes back, raise on a duplicate stage name, otherwise record
the name and emit the stage. -/
def buildBody (h1 : Heap) (i : Nat) (nd1 : NodeData) (n1 : List String)
    (e1 : List Emission) : BuildRes :=
  let p : Int :=
    match nd1.parallelism with
    | some q => q
    | Option.none => calcParallelism h1 nd1.parents
  let nm : String :=
    match nd1.stage_name with
    | some s => s
    | Option.none => calcStageName nd1.kind n1
  let h2 : Heap := hset h1 i { nd1 with parallelism := some p, stage_name := some nm }
  if nm ∈ n1 then (h2, n1, e1, some (Err.duplicateStageName nm))
  else (h2, n1 ++ [nm],
        e1 ++ [⟨i, nm, p, nd1.kind, upstreamNames h2 nd1.parents⟩], Option.none)

/-- The parent loop of `_build`: build each parent in order, threading
the mutable state; a raised exception aborts the loop. -/
def buildSeq (step : Heap → Nat → List String → List Emission → Option BuildRes) :
    List Nat → Heap → List String → List Emission → Option BuildRes
  | [], h, names, ems => some (h, names, ems, Option.none)
  | i :: rest, h, names, ems =>
      match step h i names ems with
      | Option.none => Option.none
      | some (h1, n1, e1, some er) => some (h1, n1, e1, some er)
      | some (h1, n1, e1, Option.none) => buildSeq step rest h1 n1 e1

/-- `Streamlet._build`, fuel-indexed: recurse into every parent first,
then run the body on this node.  `Option.none` marks fuel exhaustion
(unbounded recursion on the Python side). -/
def build : Nat → Heap → Nat → List String → List Emission → Option BuildRes
  | 0, _, _, _, _ => Option.none
  | fuel + 1, h, i, names, ems =>
      match h i with
      | Option.none => Option.none
      | some nd =>
          match buildSeq (build fuel) nd.parents h names ems with
          | Option.none => Option.none
          | some (h1, n1, e1, some er) => some (h1, n1, e1, some er)
          | some (h1, n1, e1, Option.none) =>
              match h1 i with
              | Option.none => Option.none
              | some nd1 => some (buildBody h1 i nd1 n1 e1)

/-- Projection of a build outcome to its observable part (stage-name
set, emission sequence, exception), dropping the heap. -/
def bRes (o : Option BuildRes) : Option (List String × List Emission × Option Err) :=
  o.map (fun r => (r.2.1, r.2.2.1, r.2.2.2))

/-- The interactions `run` performs with the assembly target. -/
inductive ACall where
  | newBuilder (job : String)
  | addStage (e : Emission)
  | setConfig (c : PyVal)
  | submit
deriving DecidableEq

namespace Streamlet

/-- `Streamlet.run(name, config)`: reject a non-string name, create the
builder, compile via `_build`, then check and apply `config`, then
submit.  Returns the trace of assembly-target calls together with the
exception raised, if any. -/
def run (fuel : Nat) (h : Heap) (t : Nat) (nameV configV : PyVal) :
    Option (List ACall × Option Err) :=
  match nameV with
  | PyVal.str s =>
      match build fuel h t [] [] with
      | Option.none => Option.none
      | some (_, _, ems, some er) =>
          some (ACall.newBuilder s :: ems.map ACall.addStage, some er)
      | some (_, _, ems, Option.none) =>
          match configV with
          | PyVal.none =>
              some (ACall.newBuilder s :: ems.map ACall.addStage ++ [ACall.submit],
                    Option.none)
          | PyVal.dict d =>
              some (ACall.newBuilder s :: ems.map ACall.addStage ++
                      [ACall.setConfig (PyVal.dict d), ACall.submit], Option.none)
          | _ =>
              some (ACall.newBuilder s :: ems.map ACall.addStage,
                    some Err.invalidConfiguration)
  | _ => some ([], some Err.invalidJobName)

/-- The `name` property setter: `self._name = nm`, no validation, no
failure path (the `Except` codomain records that it could in principle
raise, as the spec claims it does). -/
def name_set (d : NodeData) (v : PyVal) : Except Err NodeData :=
  Except.ok { d with pname := v }

/-- The `num_partitions` property setter: `self._num_partitions = n`,
no validation, no failure path. -/
def num_partitions_set (d : NodeData) (v : PyVal) : Except Err NodeData :=
  Except.ok { d with num_partitions := v }

/-- Modelled from the spec: the operator subclass constructors (in
modules outside this fragment) store the constructor arguments
verbatim: parents, `stage_name`, `parallelism`, and operator
parameters; `Streamlet.__init__` (in this fragment) initialises `_name
= None` and `_num_partitions = 1`. -/
def mkNode (k : Kind) (parents : List Nat) (sn : Option String)
    (par : Option Int) (w : Option TimeWindow) (f : Option Nat) : NodeData :=
  { kind := k, parents := parents, stage_name := sn, parallelism := par,
    window := w, func := f, pname := PyVal.none, num_partitions := PyVal.int 1 }

/-- `Streamlet.join`: a new `JoinStreamlet` with
`parents=[self, join_streamlet]`. -/
def join (selfId otherId : Nat) (tw : TimeWindow) (sn : Option String)
    (par : Option Int) : NodeData :=
  mkNode Kind.join [selfId, otherId] sn par (some tw) Option.none

/-- `Streamlet.reduce_by_window`: a `ReduceByKeyAndWindowStreamlet` with
`parents=[self]` and `parallelism=1`. -/
def reduce_by_window (selfId : Nat) (tw : TimeWindow) (f : Nat)
    (sn : Option String) : NodeData :=
  mkNode Kind.reduceByKeyAndWindow [selfId] sn (some 1) (some tw) (some f)

/-- `Streamlet.reduce_by_key_and_window`: a
`ReduceByKeyAndWindowStreamlet` with `parents=[self]` and the caller's
`parallelism`. -/
def reduce_by_key_and_window (selfId : Nat) (tw : TimeWindow) (f : Nat)
    (sn : Option String) (par : Option Int) : NodeData :=
  mkNode Kind.reduceByKeyAndWindow [selfId] sn par (some tw) (some f)

end Streamlet

/-- Apply the `name` setter to the node object `i` on the heap. -/
def heapSetName (h : Heap) (i : Nat) (v : PyVal) : Heap :=
  fun j => if j = i then (h j).map (fun d => { d with pname := v }) else h j

/-- Apply the `num_partitions` setter to the node object `i` on the
heap. -/
def heapSetNumPartitions (h : Heap) (i : Nat) (v : PyVal) : Heap :=
  fun j => if j = i then (h j).map (fun d => { d with num_partitions := v }) else h j

/-- A source node with an explicit stage name and explicit
`_parallelism` (source construction is external to this fragment; its
objects carry the same attributes `_build` reads). -/
def mkSource (nm : String) (par : Option Int) : NodeData :=
  { kind := Kind.source, parents := [], stage_name := some nm, parallelism := par,
    window := Option.none, func := Option.none, pname := PyVal.none,
    num_partitions := PyVal.int 1 }

/-- A map node over one parent, parallelism unset. -/
def mkMapNode (parent : Nat) (sn : Option String) : NodeData :=
  { kind := Kind.map, parents := [parent], stage_name := sn,
    parallelism := Option.none, window := Option.none, func := Option.none,
    pname := PyVal.none, num_partitions := PyVal.int 1 }

/-- Shared-subgraph example: source `src` feeding the two maps `m1` and
`m2`, which a join `j` consumes — node `0` is a parent of both `1` and
`2`. -/
def hDiamond : Heap := fun i =>
  if i = 0 then some (mkSource "src" (some 1))
  else if i = 1 then some (mkMapNode 0 (some "m1"))
  else if i = 2 then some (mkMapNode 0 (some "m2"))
  else if i = 3 then some (Streamlet.join 1 2 ⟨10, 10⟩ (some "j") Option.none)
  else Option.none

/-- Two-node chain: source `a` (parallelism 2) feeding map `b`. -/
def hChain : Heap := fun i =>
  if i = 0 then some (mkSource "a" (some 2))
  else if i = 1 then some (mkMapNode 0 (some "b"))
  else Option.none

/-- The spec's end-to-end join scenario: sources `s1` (parallelism 2)
and `s2` (parallelism 3), joined with no explicit overrides. -/
def hJoin : Heap := fun i =>
  if i = 0 then some (mkSource "s1" (some 2))
  else if i = 1 then some (mkSource "s2" (some 3))
  else if i = 2 then some (Streamlet.join 0 1 ⟨10, 10⟩ Option.none Option.none)
  else Option.none

/-- One source node with an explicit name. -/
def hOne : Heap := fun i =>
  if i = 0 then some (mkSource "s" (some 1)) else Option.none

/-- One source node whose `_parallelism` was explicitly set to `0`. -/
def hPar0 : Heap := fun i =>
  if i = 0 then some (mkSource "s" (some 0)) else Option.none

/-- Heap evolution along a pass: the domain is stable, and every node
keeps its variant, its parents, and any already-resolved stage name or
parallelism value. -/
def HeapLe (h h' : Heap) : Prop :=
  (∀ i, h i = Option.none → h' i = Option.none) ∧
  ∀ i d, h i = some d → ∃ d', h' i = some d' ∧ d'.kind = d.kind ∧
    d'.parents = d.parents ∧
    (∀ s, d.stage_name = some s → d'.stage_name = some s) ∧
    (∀ q, d.parallelism = some q → d'.parallelism = some q)

/-- Every recorded emission matches the heap: the emitted node exists
and its resolved attributes agree with the emission. -/
def PF (h : Heap) (ems : List Emission) : Prop :=
  ∀ e ∈ ems, ∃ d, h e.nodeId = some d ∧ d.stage_name = some e.name ∧
    d.parallelism = some e.parallelism

/-- Every emitted name is in the `stage_names` set. -/
def NamesCover (ems : List Emission) (names : List String) : Prop :=
  ∀ e ∈ ems, e.name ∈ names

/-- Dependency order: wherever an emission sits in the sequence, each
parent of its node was emitted strictly earlier. -/
def GoodOrder (h : Heap) (ems : List Emission) : Prop :=
  ∀ pre e post, ems = pre ++ e :: post → ∀ d, h e.nodeId = some d →
    ∀ p ∈ d.parents, ∃ ep ∈ pre, ep.nodeId = p

/-- Invariant of the in-progress pass state. -/
def PassInv (h : Heap) (names : List String) (ems : List Emission) : Prop :=
  names.Nodup ∧ PF h ems ∧ NamesCover ems names ∧ GoodOrder h ems

/-- Any node whose stage name or parallelism became resolved during a
stretch of the pass was emitted during that stretch. -/
def NRE (h h' : Heap) (ds : List Emission) : Prop :=
  ∀ j d d', h j = some d → h' j = some d' →
    ((d.parallelism = Option.none ∧ d'.parallelism ≠ Option.none) ∨
     (d.stage_name = Option.none ∧ d'.stage_name ≠ Option.none)) →
    ∃ e ∈ ds, e.nodeId = j

/-- How the fresh emissions of a stretch of the pass relate to the node
records as they stood when the stretch began (`h`) and the heap when it
ended (`h'`): explicit names and parallelisms are emitted verbatim, and
a node without explicit parallelism is emitted with the value
`_calculate_parallelism` yields over its parents' final records. -/
def CFd (h h' : Heap) (ds : List Emission) : Prop :=
  ∀ e ∈ ds, ∀ d0, h e.nodeId = some d0 →
    (∀ s, d0.stage_name = some s → e.name = s) ∧
    (∀ q, d0.parallelism = some q → e.parallelism = q) ∧
    (d0.parallelism = Option.none → e.parallelism = calcParallelism h' d0.parents)

/-- Reachability along parent references. -/
inductive Reach (h : Heap) : Nat → Nat → Prop where
  | refl (i : Nat) : Reach h i i
  | step {i p j : Nat} {d : NodeData} : h i = some d → p ∈ d.parents →
      Reach h p j → Reach h i j

/-- The parent's resolved parallelism as recorded in the emission
sequence. -/
def emsLookupPar (ems : List Emission) (p : Nat) : Option Int :=
  (ems.find? (fun e => e.nodeId == p)).map Emission.parallelism

/-- The spec's parallelism formula, stated in the spec's own terms:
`max(1, max(parent.parallelism for parent in node.parents))`, reading
each parent's resolved parallelism off the emission sequence. -/
def specParallelismE (ems : List Emission) (ps : List Nat) : Int :=
  (ps.map (fun p => (emsLookupPar ems p).getD 1)).foldl max 1

/-- The compile-relevant projection of a node record: everything except
the `_name` / `_num_partitions` attributes the public properties
access. -/
structure CoreData where
  kind : Kind
  parents : List Nat
  stage_name : Option String
  parallelism : Option Int
  window : Option TimeWindow
  func : Option Nat
deriving DecidableEq

/-- Project a node record to its compile-relevant core. -/
def core (d : NodeData) : CoreData :=
  { kind := d.kind, parents := d.parents, stage_name := d.stage_name,
    parallelism := d.parallelism, window := d.window, func := d.func }

/-- Two heaps agree on everything compilation can observe. -/
def coreAgree (h h2 : Heap) : Prop :=
  ∀ i, (h i).map core = (h2 i).map core

/-- Facts true of every completed `_build` call, error or not: the heap
evolves monotonically, `stage_names` and the emission list only grow,
in lockstep, distinctness of `stage_names` is preserved, and the only
exception `_build` raises is the duplicate-stage-name one, always
carrying a name that is in the final `stage_names` set. -/
def Basic (h : Heap) (names : List String) (ems : List Emission) (r : BuildRes) : Prop :=
  HeapLe h r.1 ∧
  (∃ ds, r.2.2.1 = ems ++ ds ∧ r.2.1 = names ++ ds.map Emission.name) ∧
  (names.Nodup → r.2.1.Nodup) ∧
  (∀ er, r.2.2.2 = some er → ∃ nm, er = Err.duplicateStageName nm ∧ nm ∈ r.2.1)

/-- Everything a successfully returning stretch of the pass (one
`_build` call or one run of the parent loop) guarantees, relative to its
input state: the pass invariant is maintained, the heap evolves
monotonically, `ds` is the list of emissions the stretch performed (in
order), name registration happens in lockstep with emission, newly
resolved nodes were emitted in the stretch, and the fresh emissions
carry the values dictated by the node records (`CFd`). -/
def StretchOut (h : Heap) (names : List String) (ems : List Emission)
    (h' : Heap) (n' : List String) (e' : List Emission) (ds : List Emission) : Prop :=
  PassInv h' n' e' ∧ HeapLe h h' ∧ e' = ems ++ ds ∧
  n' = names ++ ds.map Emission.name ∧ NRE h h' ds ∧ CFd h h' ds

theorem heapLe_refl (h : Heap) : HeapLe h h := by
  refine ⟨fun i hi => hi, fun i d hd => ⟨d, hd, rfl, rfl, fun s hs => hs, fun q hq => hq⟩⟩

theorem heapLe_trans {h h1 h2 : Heap} (a : HeapLe h h1) (b : HeapLe h1 h2) :
    HeapLe h h2 := by
  refine ⟨fun i hi => b.1 i (a.1 i hi), fun i d hd => ?_⟩
  obtain ⟨d1, hd1, hk1, hp1, hs1, hq1⟩ := a.2 i d hd
  obtain ⟨d2, hd2, hk2, hp2, hs2, hq2⟩ := b.2 i d1 hd1
  exact ⟨d2, hd2, hk2.trans hk1, hp2.trans hp1,
    fun s hs => hs2 s (hs1 s hs), fun q hq => hq2 q (hq1 q hq)⟩

theorem heapLe_hset {h : Heap} {i : Nat} {d d' : NodeData} (hi : h i = some d)
    (hk : d'.kind = d.kind) (hp : d'.parents = d.parents)
    (hs : ∀ s, d.stage_name = some s → d'.stage_name = some s)
    (hq : ∀ q, d.parallelism = some q → d'.parallelism = some q) :
    HeapLe h (hset h i d') := by
  constructor
  · intro j hj
    by_cases hji : j = i
    · rw [hji, hi] at hj; exact absurd hj (by simp)
    · simp [hset, hji, hj]
  · intro j dj hj
    by_cases hji : j = i
    · subst hji
      rw [hi] at hj
      injection hj with hj; subst hj
      exact ⟨d', by simp [hset], hk, hp, hs, hq⟩
    · exact ⟨dj, by simp [hset, hji, hj], rfl, rfl, fun s h2 => h2, fun q h2 => h2⟩

/-- Update of a node not in a parent list leaves `_calculate_parallelism`
over that list unchanged. -/
theorem calcFold_congr {f g : Nat → Option Int} (ps : List Nat)
    (hfg : ∀ p ∈ ps, f p = g p) : ∀ a, calcFold f a ps = calcFold g a ps := by
  induction ps with
  | nil => intro a; rfl
  | cons p rest ih =>
      intro a
      have hp := hfg p (by simp)
      have hrest : ∀ q ∈ rest, f q = g q := fun q hq => hfg q (by simp [hq])
      simp only [calcFold, List.foldl_cons] at *
      rw [hp]
      exact ih hrest _

theorem calcFold_ge (f : Nat → Option Int) (ps : List Nat) :
    ∀ a : Int, a ≤ calcFold f a ps := by
  induction ps with
  | nil => intro a; exact le_refl a
  | cons p rest ih =>
      intro a
      refine le_trans ?_ (ih _)
      cases hf : f p with
      | none => simp [calcFold, List.foldl_cons, hf]
      | some v =>
          simp only [calcFold, List.foldl_cons, hf]
          by_cases hav : a < v
          · simp [hav]; omega
          · simp [hav]

theorem calcFold_all_some {f : Nat → Option Int} {ps : List Nat}
    (hf : ∀ p ∈ ps, ∃ v, f p = some v) :
    ∀ a, calcFold f a ps = (ps.map (fun p => (f p).getD 1)).foldl max a := by
  induction ps with
  | nil => intro a; rfl
  | cons p rest ih =>
      intro a
      obtain ⟨v, hv⟩ := hf p (by simp)
      have hrest : ∀ q ∈ rest, ∃ w, f q = some w := fun q hq => hf q (by simp [hq])
      simp only [calcFold, List.foldl_cons, List.map_cons, hv, Option.getD_some]
      have hstep : (if a < v then v else a) = max a v := by
        by_cases hav : a < v
        · simp [hav]; omega
        · simp [hav]; omega
      rw [hstep]
      exact ih hrest (max a v)

theorem buildSeq_nil (step : Heap → Nat → List String → List Emission → Option BuildRes)
    (h : Heap) (n : List String) (e : List Emission) :
    buildSeq step [] h n e = some (h, n, e, Option.none) := rfl

theorem buildSeq_cons_inv
    (step : Heap → Nat → List String → List Emission → Option BuildRes)
    (i : Nat) (rest : List Nat) (h : Heap) (n : List String) (e : List Emission)
    (r : BuildRes) (hb : buildSeq step (i :: rest) h n e = some r) :
    ∃ h1 n1 e1,
      (∃ er, step h i n e = some (h1, n1, e1, some er) ∧ r = (h1, n1, e1, some er)) ∨
      (step h i n e = some (h1, n1, e1, Option.none) ∧
        buildSeq step rest h1 n1 e1 = some r) := by
  simp only [buildSeq] at hb
  split at hb
  · exact absurd hb (by simp)
  next h1 n1 e1 er heq =>
    exact ⟨h1, n1, e1, Or.inl ⟨er, heq, (Option.some.inj hb).symm⟩⟩
  next h1 n1 e1 heq =>
    exact ⟨h1, n1, e1, Or.inr ⟨heq, hb⟩⟩

theorem build_succ_inv (fuel : Nat) (h : Heap) (i : Nat) (n : List String)
    (e : List Emission) (r : BuildRes) (hb : build (fuel + 1) h i n e = some r) :
    ∃ nd, h i = some nd ∧
      ((∃ h1 n1 e1 er, buildSeq (build fuel) nd.parents h n e = some (h1, n1, e1, some er) ∧
          r = (h1, n1, e1, some er)) ∨
       (∃ h1 n1 e1 nd1, buildSeq (build fuel) nd.parents h n e = some (h1, n1, e1, Option.none) ∧
          h1 i = some nd1 ∧ r = buildBody h1 i nd1 n1 e1)) := by
  simp only [build] at hb
  split at hb
  · exact absurd hb (by simp)
  next nd hhi =>
    refine ⟨nd, hhi, ?_⟩
    split at hb
    · exact absurd hb (by simp)
    next h1 n1 e1 er heq =>
      exact Or.inl ⟨h1, n1, e1, er, heq, (Option.some.inj hb).symm⟩
    next h1 n1 e1 heq =>
      split at hb
      · exact absurd hb (by simp)
      next nd1 hh1 =>
        exact Or.inr ⟨h1, n1, e1, nd1, heq, hh1, (Option.some.inj hb).symm⟩

theorem buildBody_cases (h1 : Heap) (i : Nat) (nd1 : NodeData) (n1 : List String)
    (e1 : List Emission) :
    ∃ p nm,
      (∀ s, nd1.stage_name = some s → nm = s) ∧
      (nd1.stage_name = Option.none → nm = calcStageName nd1.kind n1) ∧
      (∀ q, nd1.parallelism = some q → p = q) ∧
      (nd1.parallelism = Option.none → p = calcParallelism h1 nd1.parents) ∧
      ((nm ∈ n1 ∧ buildBody h1 i nd1 n1 e1 =
          (hset h1 i { nd1 with parallelism := some p, stage_name := some nm }, n1, e1,
           some (Err.duplicateStageName nm))) ∨
       (nm ∉ n1 ∧ buildBody h1 i nd1 n1 e1 =
          (hset h1 i { nd1 with parallelism := some p, stage_name := some nm },
           n1 ++ [nm],
           e1 ++ [⟨i, nm, p, nd1.kind,
             upstreamNames
               (hset h1 i { nd1 with parallelism := some p, stage_name := some nm })
               nd1.parents⟩],
           Option.none))) := by
  refine ⟨(match nd1.parallelism with
            | some q => q
            | Option.none => calcParallelism h1 nd1.parents),
          (match nd1.stage_name with
            | some s => s
            | Option.none => calcStageName nd1.kind n1), ?_, ?_, ?_, ?_, ?_⟩
  · intro s hs; rw [hs]
  · intro hs; rw [hs]
  · intro q hq; rw [hq]
  · intro hq; rw [hq]
  · by_cases hmem :
      (match nd1.stage_name with
        | some s => s
        | Option.none => calcStageName nd1.kind n1) ∈ n1
    · exact Or.inl ⟨hmem, by simp only [buildBody, if_pos hmem]⟩
    · exact Or.inr ⟨hmem, by simp only [buildBody, if_neg hmem]⟩

theorem basic_refl (h : Heap) (n : List String) (e : List Emission) :
    Basic h n e (h, n, e, Option.none) := by
  refine ⟨heapLe_refl h, ⟨[], by simp, by simp⟩, fun hn => hn, fun er her => ?_⟩
  exact absurd her (by simp)

theorem basic_trans {h h1 : Heap} {n n1 : List String} {e e1 : List Emission}
    {r : BuildRes} (a : Basic h n e (h1, n1, e1, Option.none))
    (b : Basic h1 n1 e1 r) : Basic h n e r := by
  obtain ⟨ha1, ⟨ds, hds, hns⟩, ha3, ha4⟩ := a
  obtain ⟨hb1, ⟨ds', hds', hns'⟩, hb3, hb4⟩ := b
  refine ⟨heapLe_trans ha1 hb1, ⟨ds ++ ds', ?_, ?_⟩, fun hn => hb3 (ha3 hn), hb4⟩
  · simp only at hds hds'
    rw [hds', hds, List.append_assoc]
  · simp only at hns hns'
    rw [hns', hns, List.map_append, List.append_assoc]

theorem basic_body {h1 : Heap} {i : Nat} {nd1 : NodeData} {n1 : List String}
    {e1 : List Emission} (hi : h1 i = some nd1) :
    Basic h1 n1 e1 (buildBody h1 i nd1 n1 e1) := by
  obtain ⟨p, nm, hnm1, _, hp1, _, hout⟩ := buildBody_cases h1 i nd1 n1 e1
  have hle : HeapLe h1 (hset h1 i { nd1 with parallelism := some p, stage_name := some nm }) := by
    refine heapLe_hset hi rfl rfl ?_ ?_
    · intro s hs; simp [hnm1 s hs]
    · intro q hq; simp [hp1 q hq]
  rcases hout with ⟨hmem, heq⟩ | ⟨hmem, heq⟩
  · rw [heq]
    refine ⟨hle, ⟨[], by simp, by simp⟩, fun hn => hn, fun er her => ?_⟩
    simp only at her
    injection her with her
    exact ⟨nm, her.symm, hmem⟩
  · rw [heq]
    refine ⟨hle, ⟨[⟨i, nm, p, nd1.kind,
        upstreamNames
          (hset h1 i { nd1 with parallelism := some p, stage_name := some nm })
          nd1.parents⟩], by simp, by simp⟩, fun hn => ?_,
      fun er her => absurd her (by simp)⟩
    simp only [List.nodup_append]
    exact ⟨hn, List.nodup_singleton nm, by simpa using fun hx => hmem hx⟩

theorem basic_seq
    (step : Heap → Nat → List String → List Emission → Option BuildRes)
    (hstep : ∀ h i n e r, step h i n e = some r → Basic h n e r) :
    ∀ (is : List Nat) (h : Heap) (n : List String) (e : List Emission) (r : BuildRes),
      buildSeq step is h n e = some r → Basic h n e r := by
  intro is
  induction is with
  | nil =>
      intro h n e r hb
      rw [buildSeq_nil] at hb
      rw [← Option.some.inj hb]
      exact basic_refl h n e
  | cons i rest ih =>
      intro h n e r hb
      obtain ⟨h1, n1, e1, hcase⟩ := buildSeq_cons_inv step i rest h n e r hb
      rcases hcase with ⟨er, hstp, hr⟩ | ⟨hstp, hrest⟩
      · rw [hr]; exact hstep h i n e _ hstp
      · exact basic_trans (hstep h i n e _ hstp) (ih h1 n1 e1 r hrest)

theorem basic_build :
    ∀ (fuel : Nat) (h : Heap) (i : Nat) (n : List String) (e : List Emission)
      (r : BuildRes), build fuel h i n e = some r → Basic h n e r := by
  intro fuel
  induction fuel with
  | zero => intro h i n e r hb; exact absurd hb (by simp [build])
  | succ fuel ih =>
      intro h i n e r hb
      obtain ⟨nd, hhi, hcase⟩ := build_succ_inv fuel h i n e r hb
      rcases hcase with ⟨h1, n1, e1, er, hseq, hr⟩ | ⟨h1, n1, e1, nd1, hseq, hh1, hr⟩
      · rw [hr]
        exact basic_seq (build fuel) ih nd.parents h n e _ hseq
      · rw [hr]
        exact basic_trans (basic_seq (build fuel) ih nd.parents h n e _ hseq)
          (basic_body hh1)

theorem reach_transfer {h h' : Heap} (hle : HeapLe h h') :
    ∀ {a b : Nat}, Reach h a b → Reach h' a b := by
  intro a b hr
  induction hr with
  | refl i => exact Reach.refl i
  | @step i p j d hd hp _ ih =>
      obtain ⟨d', hd', _, hps, _, _⟩ := hle.2 _ d hd
      exact Reach.step hd' (by rw [hps]; exact hp) ih

theorem pf_transfer {h h' : Heap} {ems : List Emission} (hle : HeapLe h h')
    (hpf : PF h ems) : PF h' ems := by
  intro e he
  obtain ⟨d, hd, hs, hq⟩ := hpf e he
  obtain ⟨d', hd', _, _, hs', hq'⟩ := hle.2 _ d hd
  exact ⟨d', hd', hs' _ hs, hq' _ hq⟩

theorem lookup_back {h h' : Heap} (hle : HeapLe h h') {j : Nat} {d' : NodeData}
    (hd' : h' j = some d') : ∃ d, h j = some d ∧ d.kind = d'.kind ∧
      d.parents = d'.parents := by
  cases hd : h j with
  | none => rw [hle.1 j hd] at hd'; exact absurd hd' (by simp)
  | some d =>
      obtain ⟨d2, hd2, hk, hps, _, _⟩ := hle.2 j d hd
      rw [hd'] at hd2
      injection hd2 with hd2
      exact ⟨d, rfl, by rw [hd2]; exact hk.symm, by rw [hd2]; exact hps.symm⟩

theorem goodOrder_fwd {h h' : Heap} {ems : List Emission} (hle : HeapLe h h')
    (hg : GoodOrder h ems) : GoodOrder h' ems := by
  intro pre e post hdec d' hd' p hp
  obtain ⟨d, hd, _, hps⟩ := lookup_back hle hd'
  exact hg pre e post hdec d hd p (by rw [hps]; exact hp)

theorem goodOrder_back {h h' : Heap} {ems : List Emission} (hle : HeapLe h h')
    (hg : GoodOrder h' ems) : GoodOrder h ems := by
  intro pre e post hdec d hd p hp
  obtain ⟨d', hd', _, hps, _, _⟩ := hle.2 _ d hd
  exact hg pre e post hdec d' hd' p (by rw [hps]; exact hp)

theorem calc_stable {h h' : Heap} {ps : List Nat} (hle : HeapLe h h')
    (hres : ∀ p ∈ ps, ∃ v, parOf h p = some v) :
    calcParallelism h ps = calcParallelism h' ps := by
  refine calcFold_congr ps (fun p hp => ?_) 1
  obtain ⟨v, hv⟩ := hres p hp
  rw [hv]
  cases hd : h p with
  | none => unfold parOf at hv; rw [hd] at hv; exact absurd hv (by simp)
  | some d =>
      unfold parOf at hv
      rw [hd] at hv
      obtain ⟨d', hd', _, _, _, hq⟩ := hle.2 p d hd
      show some v = parOf h' p
      unfold parOf
      rw [hd']
      exact (hq v hv).symm

theorem calc_hset_out {h : Heap} {i : Nat} {d : NodeData} {ps : List Nat}
    (hni : i ∉ ps) : calcParallelism (hset h i d) ps = calcParallelism h ps := by
  refine calcFold_congr ps (fun p hp => ?_) 1
  have hpi : p ≠ i := fun hcontra => hni (hcontra ▸ hp)
  simp [parOf, hset, hpi]

theorem append_singleton_split {α : Type} {l pre post : List α} {x e : α}
    (h : l ++ [x] = pre ++ e :: post) :
    (pre = l ∧ e = x ∧ post = []) ∨ ∃ post', l = pre ++ e :: post' := by
  rcases List.eq_nil_or_concat post with hpost | ⟨post'', y, hpost⟩
  · subst hpost
    obtain ⟨h1, h2⟩ := List.append_inj' h (by rfl)
    injection h2 with h2
    exact Or.inl ⟨h1.symm, h2.symm, rfl⟩
  · subst hpost
    have h' : l ++ [x] = (pre ++ e :: post'') ++ [y] := by
      rw [h, List.concat_eq_append, List.append_assoc]
      simp
    obtain ⟨h1, _⟩ := List.append_inj' h' (by rfl)
    exact Or.inr ⟨post'', h1⟩

theorem stretch_refl {h : Heap} {n : List String} {e : List Emission}
    (hinv : PassInv h n e) : StretchOut h n e h n e [] := by
  refine ⟨hinv, heapLe_refl h, by simp, by simp, ?_, ?_⟩
  · intro j d d' hd hd' hch
    rw [hd] at hd'
    injection hd' with hd'
    subst hd'
    rcases hch with ⟨h1, h2⟩ | ⟨h1, h2⟩ <;> exact absurd h1 h2
  · intro x hx
    exact absurd hx (by simp)

theorem stretch_trans {h h1 h' : Heap} {n n1 n' : List String}
    {e e1 e' : List Emission} {ds1 ds2 : List Emission}
    (a : StretchOut h n e h1 n1 e1 ds1) (b : StretchOut h1 n1 e1 h' n' e' ds2) :
    StretchOut h n e h' n' e' (ds1 ++ ds2) := by
  obtain ⟨ainv, ale, ae, an, anre, acf⟩ := a
  obtain ⟨binv, ble, be, bn, bnre, bcf⟩ := b
  refine ⟨binv, heapLe_trans ale ble, by rw [be, ae, List.append_assoc],
    by rw [bn, an, List.map_append, List.append_assoc], ?_, ?_⟩
  · intro j d d' hd hd' hch
    obtain ⟨dm, hdm, _, _, hsm, hqm⟩ := ale.2 j d hd
    rcases hch with ⟨hnone, hsome⟩ | ⟨hnone, hsome⟩
    · cases hdq : dm.parallelism with
      | some v =>
          obtain ⟨x, hx, hxj⟩ := anre j d dm hd hdm (Or.inl ⟨hnone, by rw [hdq]; simp⟩)
          exact ⟨x, by simp [hx], hxj⟩
      | none =>
          obtain ⟨x, hx, hxj⟩ := bnre j dm d' hdm hd' (Or.inl ⟨hdq, hsome⟩)
          exact ⟨x, by simp [hx], hxj⟩
    · cases hdq : dm.stage_name with
      | some v =>
          obtain ⟨x, hx, hxj⟩ := anre j d dm hd hdm (Or.inr ⟨hnone, by rw [hdq]; simp⟩)
          exact ⟨x, by simp [hx], hxj⟩
      | none =>
          obtain ⟨x, hx, hxj⟩ := bnre j dm d' hdm hd' (Or.inr ⟨hdq, hsome⟩)
          exact ⟨x, by simp [hx], hxj⟩
  · intro x hx d0 hd0
    rcases List.mem_append.mp hx with hx1 | hx2
    · obtain ⟨hname, hq, hnone⟩ := acf x hx1 d0 hd0
      refine ⟨hname, hq, fun hpar => ?_⟩
      rw [hnone hpar]
      have hxe1 : x ∈ e1 := by rw [ae]; exact List.mem_append.mpr (Or.inr hx1)
      obtain ⟨pre, post, hdec⟩ := List.append_of_mem hxe1
      obtain ⟨d1x, hd1x, _, hps1x, _, _⟩ := ale.2 _ d0 hd0
      have hres : ∀ p ∈ d0.parents, ∃ v, parOf h1 p = some v := by
        intro p hp
        obtain ⟨ep, hep, hepj⟩ :=
          ainv.2.2.2 pre x post hdec d1x hd1x p (by rw [hps1x]; exact hp)
        have hepe1 : ep ∈ e1 := by rw [hdec]; exact List.mem_append.mpr (Or.inl hep)
        obtain ⟨dp, hdp, _, hdpq⟩ := ainv.2.1 ep hepe1
        refine ⟨ep.parallelism, ?_⟩
        rw [hepj] at hdp
        unfold parOf
        rw [hdp]
        exact hdpq
      exact calc_stable ble hres
    · obtain ⟨dm, hdm, _, hpsm, hsm, hqm⟩ := ale.2 _ d0 hd0
      obtain ⟨hnameB, hqB, hnoneB⟩ := bcf x hx2 dm hdm
      refine ⟨fun s hs => hnameB s (hsm s hs), fun q hq => hqB q (hqm q hq),
        fun hpar => ?_⟩
      cases hdq : dm.parallelism with
      | none => rw [hnoneB hdq, hpsm]
      | some v =>
          exfalso
          obtain ⟨ej, hej, hejid⟩ :=
            anre _ d0 dm hd0 hdm (Or.inl ⟨hpar, by rw [hdq]; simp⟩)
          have heje1 : ej ∈ e1 := by rw [ae]; exact List.mem_append.mpr (Or.inr hej)
          obtain ⟨dj, hdj, hdjs, _⟩ := ainv.2.1 ej heje1
          rw [hejid, hdm] at hdj
          injection hdj with hdj
          have hdms : dm.stage_name = some ej.name := by rw [hdj]; exact hdjs
          have hxn : x.name = ej.name := hnameB ej.name hdms
          have hn1 : ej.name ∈ n1 := ainv.2.2.1 ej heje1
          have hnodup : (n1 ++ ds2.map Emission.name).Nodup := by rw [← bn]; exact binv.1
          have hdisj := List.disjoint_of_nodup_append hnodup
          exact hdisj hn1 (by rw [← hxn]; exact List.mem_map_of_mem Emission.name hx2)

theorem seq_member_mid
    (step : Heap → Nat → List String → List Emission → Option BuildRes)
    (hbasic : ∀ h i n e r, step h i n e = some r → Basic h n e r) :
    ∀ (is : List Nat) (h : Heap) (n : List String) (e : List Emission)
      (h' : Heap) (n' : List String) (e' : List Emission),
      buildSeq step is h n e = some (h', n', e', Option.none) →
      ∀ p ∈ is, ∃ hm nm em h2 n2 e2, HeapLe h hm ∧
        step hm p nm em = some (h2, n2, e2, Option.none) := by
  intro is
  induction is with
  | nil => intro h n e h' n' e' hb p hp; exact absurd hp (by simp)
  | cons i rest ih =>
      intro h n e h' n' e' hb p hp
      obtain ⟨h1, n1, e1, hcase⟩ := buildSeq_cons_inv step i rest h n e _ hb
      rcases hcase with ⟨er, hstp, hr⟩ | ⟨hstp, hrest⟩
      · exfalso
        have hcontra := congrArg (fun z => z.2.2.2) hr
        simp at hcontra
      · rcases List.mem_cons.mp hp with hpi | hpr
        · subst hpi
          exact ⟨h, n, e, h1, n1, e1, heapLe_refl h, hstp⟩
        · obtain ⟨hm, nmx, emx, h2, n2, e2, hle, hs⟩ :=
            ih h1 n1 e1 h' n' e' hrest p hpr
          exact ⟨hm, nmx, emx, h2, n2, e2,
            heapLe_trans (hbasic h i n e _ hstp).1 hle, hs⟩

theorem no_self_parent :
    ∀ (fuel : Nat) (h : Heap) (i : Nat) (n : List String) (e : List Emission)
      (d : NodeData) (h' : Heap) (n' : List String) (e' : List Emission),
      h i = some d → i ∈ d.parents →
      build fuel h i n e ≠ some (h', n', e', Option.none) := by
  intro fuel
  induction fuel with
  | zero =>
      intro h i n e d h' n' e' hd hp hb
      exact absurd hb (by simp [build])
  | succ fuel ih =>
      intro h i n e d h' n' e' hd hp hb
      obtain ⟨nd, hhi, hcase⟩ := build_succ_inv fuel h i n e _ hb
      rw [hd] at hhi
      injection hhi with hhi
      subst hhi
      rcases hcase with ⟨h1, n1, e1, er, hseq, hr⟩ | ⟨h1, n1, e1, nd1, hseq, hh1, hr⟩
      · have hcontra := congrArg (fun z => z.2.2.2) hr
        simp at hcontra
      · obtain ⟨hm, nmx, emx, h2, n2, e2, hle, hs⟩ :=
          seq_member_mid (build fuel) (basic_build fuel) d.parents h n e h1 n1 e1
            hseq i hp
        obtain ⟨dm, hdm, _, hps, _, _⟩ := hle.2 i d hd
        exact ih hm i nmx emx dm h2 n2 e2 hdm (by rw [hps]; exact hp) hs

theorem stretch_body {h1 : Heap} {i : Nat} {nd1 : NodeData} {n1 : List String}
    {e1 : List Emission} {h' : Heap} {n' : List String} {e' : List Emission}
    (hi1 : h1 i = some nd1) (hinv : PassInv h1 n1 e1)
    (hpar : ∀ p ∈ nd1.parents, ∃ ep ∈ e1, ep.nodeId = p)
    (hnoself : i ∉ nd1.parents)
    (hbody : buildBody h1 i nd1 n1 e1 = (h', n', e', Option.none)) :
    ∃ em, em.nodeId = i ∧ StretchOut h1 n1 e1 h' n' e' [em] := by
  obtain ⟨p, nm, hnm1, hnm2, hp1, hp2, hout⟩ := buildBody_cases h1 i nd1 n1 e1
  rcases hout with ⟨hmem, heq⟩ | ⟨hmem, heq⟩
  · rw [heq] at hbody
    exfalso
    have hcontra := congrArg (fun z => z.2.2.2) hbody
    simp at hcontra
  · rw [heq] at hbody
    have hh' : h' = hset h1 i { nd1 with parallelism := some p, stage_name := some nm } :=
      (congrArg (fun z => z.1) hbody).symm
    have hn' : n' = n1 ++ [nm] := (congrArg (fun z => z.2.1) hbody).symm
    have he' : e' = e1 ++ [⟨i, nm, p, nd1.kind,
        upstreamNames
          (hset h1 i { nd1 with parallelism := some p, stage_name := some nm })
          nd1.parents⟩] := (congrArg (fun z => z.2.2.1) hbody).symm
    have hle : HeapLe h1 (hset h1 i { nd1 with parallelism := some p, stage_name := some nm }) := by
      refine heapLe_hset hi1 rfl rfl ?_ ?_
      · intro s hs; simp [hnm1 s hs]
      · intro q hq; simp [hp1 q hq]
    have hnoti : ∀ ex ∈ e1, ex.nodeId ≠ i := by
      intro ex hex hexi
      obtain ⟨dx, hdx, hdxs, _⟩ := hinv.2.1 ex hex
      rw [hexi, hi1] at hdx
      injection hdx with hdx
      have hxnm : nm = ex.name := hnm1 ex.name (by rw [hdx]; exact hdxs)
      exact hmem (by rw [hxnm]; exact hinv.2.2.1 ex hex)
    refine ⟨⟨i, nm, p, nd1.kind,
      upstreamNames
        (hset h1 i { nd1 with parallelism := some p, stage_name := some nm })
        nd1.parents⟩, rfl, ?_, by rw [hh']; exact hle, by rw [he'],
      by rw [hn']; simp, ?_, ?_⟩
    · -- the pass invariant at the new state
      refine ⟨?_, ?_, ?_, ?_⟩
      · rw [hn']
        simp only [List.nodup_append, List.nodup_singleton]
        exact ⟨hinv.1, trivial, by simpa using fun hx => hmem hx⟩
      · -- PF
        rw [hh', he']
        intro ex hex
        rcases List.mem_append.mp hex with hex1 | hex2
        · obtain ⟨dx, hdx, hdxs, hdxq⟩ := hinv.2.1 ex hex1
          exact ⟨dx, by simp [hset, hnoti ex hex1, hdx], hdxs, hdxq⟩
        · simp only [List.mem_singleton] at hex2
          subst hex2
          exact ⟨{ nd1 with parallelism := some p, stage_name := some nm },
            by simp [hset], rfl, rfl⟩
      · -- NamesCover
        rw [hn', he']
        intro ex hex
        rcases List.mem_append.mp hex with hex1 | hex2
        · exact List.mem_append.mpr (Or.inl (hinv.2.2.1 ex hex1))
        · simp only [List.mem_singleton] at hex2
          subst hex2
          simp
      · -- GoodOrder
        rw [hh', he']
        intro pre ex post hdec d hd pq hpq
        rcases append_singleton_split hdec with ⟨hpre, hex, hpost⟩ | ⟨post', hdec'⟩
        · subst hex
          simp only [hset, if_pos rfl] at hd
          injection hd with hd
          rw [← hd] at hpq
          simp only at hpq
          obtain ⟨ep, hep, hepj⟩ := hpar pq hpq
          exact ⟨ep, by rw [hpre]; exact hep, hepj⟩
        · exact goodOrder_fwd hle hinv.2.2.2 pre ex post' hdec' d hd pq hpq
    · -- NRE
      rw [hh']
      intro j d d' hd hd' hch
      by_cases hji : j = i
      · exact ⟨_, List.mem_singleton.mpr rfl, hji.symm⟩
      · simp only [hset, if_neg hji] at hd'
        rw [hd] at hd'
        injection hd' with hd'
        subst hd'
        rcases hch with ⟨ha, hb⟩ | ⟨ha, hb⟩ <;> exact absurd ha hb
    · -- CFd
      rw [hh']
      intro ex hex d0 hd0
      simp only [List.mem_singleton] at hex
      subst hex
      simp only at hd0
      rw [hi1] at hd0
      injection hd0 with hd0
      subst hd0
      refine ⟨fun s hs => hnm1 s hs, fun q hq => hp1 q hq, fun hparn => ?_⟩
      simp only
      rw [hp2 hparn]
      exact (calc_hset_out hnoself).symm

theorem succ_seq
    (step : Heap → Nat → List String → List Emission → Option BuildRes)
    (hsucc : ∀ h i n e h' n' e', step h i n e = some (h', n', e', Option.none) →
      PassInv h n e → ∃ ds, StretchOut h n e h' n' e' ds ∧
        ∀ j, Reach h i j → ∃ x ∈ ds, x.nodeId = j) :
    ∀ (is : List Nat) (h : Heap) (n : List String) (e : List Emission)
      (h' : Heap) (n' : List String) (e' : List Emission),
      buildSeq step is h n e = some (h', n', e', Option.none) →
      PassInv h n e → ∃ ds, StretchOut h n e h' n' e' ds ∧
        ∀ p ∈ is, ∀ j, Reach h p j → ∃ x ∈ ds, x.nodeId = j := by
  intro is
  induction is with
  | nil =>
      intro h n e h' n' e' hb hinv
      rw [buildSeq_nil] at hb
      injection hb with hb
      have hh := congrArg (fun z => z.1) hb
      have hn := congrArg (fun z => z.2.1) hb
      have he := congrArg (fun z => z.2.2.1) hb
      simp only at hh hn he
      subst hh; subst hn; subst he
      exact ⟨[], stretch_refl hinv, fun p hp => absurd hp (by simp)⟩
  | cons i rest ih =>
      intro h n e h' n' e' hb hinv
      obtain ⟨h1, n1, e1, hcase⟩ := buildSeq_cons_inv step i rest h n e _ hb
      rcases hcase with ⟨er, hstp, hr⟩ | ⟨hstp, hrest⟩
      · exfalso
        have hc := congrArg (fun z => z.2.2.2) hr
        simp at hc
      · obtain ⟨ds1, hso1, hreach1⟩ := hsucc h i n e h1 n1 e1 hstp hinv
        obtain ⟨ds2, hso2, hreach2⟩ := ih h1 n1 e1 h' n' e' hrest hso1.1
        refine ⟨ds1 ++ ds2, stretch_trans hso1 hso2, ?_⟩
        intro pq hpq j hrj
        rcases List.mem_cons.mp hpq with hpi | hpr
        · subst hpi
          obtain ⟨x, hx, hxj⟩ := hreach1 j hrj
          exact ⟨x, List.mem_append.mpr (Or.inl hx), hxj⟩
        · obtain ⟨x, hx, hxj⟩ := hreach2 pq hpr j (reach_transfer hso1.2.1 hrj)
          exact ⟨x, List.mem_append.mpr (Or.inr hx), hxj⟩

theorem succ_build :
    ∀ (fuel : Nat) (h : Heap) (i : Nat) (n : List String) (e : List Emission)
      (h' : Heap) (n' : List String) (e' : List Emission),
      build fuel h i n e = some (h', n', e', Option.none) →
      PassInv h n e → ∃ ds, StretchOut h n e h' n' e' ds ∧
        ∀ j, Reach h i j → ∃ x ∈ ds, x.nodeId = j := by
  intro fuel
  induction fuel with
  | zero =>
      intro h i n e h' n' e' hb hinv
      exact absurd hb (by simp [build])
  | succ fuel ih =>
      intro h i n e h' n' e' hb hinv
      obtain ⟨nd, hhi, hcase⟩ := build_succ_inv fuel h i n e _ hb
      rcases hcase with ⟨h1, n1, e1, er, hseq, hr⟩ | ⟨h1, n1, e1, nd1, hseq, hh1, hr⟩
      · exfalso
        have hc := congrArg (fun z => z.2.2.2) hr
        simp at hc
      · obtain ⟨ds1, hso1, hreach1⟩ :=
          succ_seq (build fuel) ih nd.parents h n e h1 n1 e1 hseq hinv
        obtain ⟨ndm, hndm, hk, hps, hs, hq⟩ := hso1.2.1.2 i nd hhi
        rw [hh1] at hndm
        injection hndm with hndm
        have hbody : buildBody h1 i nd1 n1 e1 = (h', n', e', Option.none) := hr.symm
        have hparents : nd1.parents = nd.parents := by rw [hndm]; exact hps
        have hpar : ∀ p ∈ nd1.parents, ∃ ep ∈ e1, ep.nodeId = p := by
          intro p hp
          rw [hparents] at hp
          obtain ⟨x, hx, hxj⟩ := hreach1 p hp p (Reach.refl p)
          exact ⟨x, by rw [hso1.2.2.1]; exact List.mem_append.mpr (Or.inr hx), hxj⟩
        have hnoself : i ∉ nd1.parents := by
          intro hcontra
          rw [hparents] at hcontra
          exact no_self_parent (fuel + 1) h i n e nd h' n' e' hhi hcontra hb
        obtain ⟨em, hemid, hso2⟩ := stretch_body hh1 hso1.1 hpar hnoself hbody
        refine ⟨ds1 ++ [em], stretch_trans hso1 hso2, ?_⟩
        intro j hrj
        cases hrj with
        | refl => exact ⟨em, List.mem_append.mpr (Or.inr (by simp)), hemid⟩
        | @step _ pz _ d hd hp hr2 =>
            rw [hhi] at hd
            injection hd with hd
            subst hd
            obtain ⟨x, hx, hxj⟩ := hreach1 pz hp j hr2
            exact ⟨x, List.mem_append.mpr (Or.inl hx), hxj⟩

theorem passInv_nil (h : Heap) : PassInv h [] [] := by
  refine ⟨List.nodup_nil, ?_, ?_, ?_⟩
  · intro e he; exact absurd he (by simp)
  · intro e he; exact absurd he (by simp)
  · intro pre e post hdec
    exact absurd hdec.symm (by simp)

theorem build_top {fuel : Nat} {h : Heap} {t : Nat} {h' : Heap} {n' : List String}
    {e' : List Emission} (hb : build fuel h t [] [] = some (h', n', e', Option.none)) :
    PassInv h' n' e' ∧ HeapLe h h' ∧ n' = e'.map Emission.name ∧
      NRE h h' e' ∧ CFd h h' e' ∧
      (∀ j, Reach h t j → ∃ x ∈ e', x.nodeId = j) := by
  obtain ⟨ds, ⟨hinv, hle, he, hn, hnre, hcf⟩, hreach⟩ :=
    succ_build fuel h t [] [] h' n' e' hb (passInv_nil h)
  have hds : ds = e' := by rw [he]; simp
  subst hds
  exact ⟨hinv, hle, by rw [hn]; simp, hnre, hcf, hreach⟩

/-- On a successful pass, the emitted node identities determine the
emission: two emissions of the same node are the same emission. -/
theorem emitted_id_inj {h' : Heap} {n' : List String} {e' : List Emission}
    (hinv : PassInv h' n' e') (hn : n' = e'.map Emission.name) :
    ∀ a ∈ e', ∀ b ∈ e', a.nodeId = b.nodeId → a = b := by
  intro a ha b hb hab
  obtain ⟨da, hda, hdas, _⟩ := hinv.2.1 a ha
  obtain ⟨db, hdb, hdbs, _⟩ := hinv.2.1 b hb
  rw [hab, hdb] at hda
  injection hda with hda
  have hnames : a.name = b.name := by
    rw [hda] at hdbs
    rw [hdas] at hdbs
    injection hdbs with hdbs
  have hmapnodup : (e'.map Emission.name).Nodup := by rw [← hn]; exact hinv.1
  exact List.inj_on_of_nodup_map hmapnodup ha hb hnames

/-- On a successful pass, each parent's resolved parallelism can be read
off the emission record, and `_calculate_parallelism` over the final
heap coincides with the spec's `max(1, ...)` formula over the emission
records. -/
theorem calc_eq_spec {h' : Heap} {n' : List String} {e' : List Emission}
    (hinv : PassInv h' n' e') (hn : n' = e'.map Emission.name)
    {ps : List Nat} (hpar : ∀ p ∈ ps, ∃ ep ∈ e', ep.nodeId = p) :
    calcParallelism h' ps = specParallelismE e' ps ∧ 1 ≤ calcParallelism h' ps := by
  have hpt : ∀ p ∈ ps, parOf h' p = emsLookupPar e' p ∧ ∃ v, parOf h' p = some v := by
    intro p hp
    obtain ⟨ep, hep, hepid⟩ := hpar p hp
    obtain ⟨dp, hdp, _, hdpq⟩ := hinv.2.1 ep hep
    have hparv : parOf h' p = some ep.parallelism := by
      unfold parOf
      rw [← hepid, hdp]
      exact hdpq
    have hfind : e'.find? (fun x => x.nodeId == p) = some ep := by
      cases hfd : e'.find? (fun x => x.nodeId == p) with
      | none =>
          exfalso
          rw [List.find?_eq_none] at hfd
          exact absurd (by simp [hepid]) (hfd ep hep)
      | some x =>
          have hxp : x.nodeId = p := by
            have hps := List.find?_some hfd
            simpa using hps
          have hxe := List.mem_of_find?_eq_some hfd
          rw [emitted_id_inj hinv hn x hxe ep hep (by rw [hxp, hepid])]
    refine ⟨?_, ep.parallelism, hparv⟩
    rw [hparv]
    unfold emsLookupPar
    rw [hfind]
    rfl
  constructor
  · unfold calcParallelism
    rw [calcFold_congr ps (fun p hp => (hpt p hp).1) 1]
    rw [calcFold_all_some (fun p hp => by
      obtain ⟨heq, v, hv⟩ := hpt p hp
      exact ⟨v, by rw [← heq]; exact hv⟩) 1]
    rfl
  · exact calcFold_ge (parOf h') ps 1

theorem bRes_some {x : Option BuildRes} {n' : List String} {ems : List Emission}
    {erO : Option Err} (hb : bRes x = some (n', ems, erO)) :
    ∃ h', x = some (h', n', ems, erO) := by
  cases x with
  | none => exact absurd hb (by simp [bRes])
  | some r =>
      obtain ⟨h', n1, e1, er⟩ := r
      refine ⟨h', ?_⟩
      have h2 := Option.some.inj hb
      have ha := congrArg (fun z => z.1) h2
      have hbm := congrArg (fun z => z.2.1) h2
      have hc := congrArg (fun z => z.2.2) h2
      simp only at ha hbm hc
      rw [ha, hbm, hc]

theorem run_err_shape {fuel : Nat} {h : Heap} {t : Nat} {s : String} {c : PyVal}
    {tr : List ACall} {er : Option Err}
    (hrun : Streamlet.run fuel h t (PyVal.str s) c = some (tr, er)) :
    er = Option.none ∨ er = some Err.invalidConfiguration ∨
      ∃ nm, er = some (Err.duplicateStageName nm) := by
  simp only [Streamlet.run] at hrun
  split at hrun
  · exact absurd hrun (by simp)
  next h1 n1 ems eb heq =>
    obtain ⟨nm, hnm, _⟩ := (basic_build fuel h t [] [] _ heq).2.2.2 eb rfl
    have her := congrArg (fun z => z.2) (Option.some.inj hrun)
    simp only at her
    exact Or.inr (Or.inr ⟨nm, by rw [← her, hnm]⟩)
  next h1 n1 ems heq =>
    cases c with
    | none =>
        have her := congrArg (fun z => z.2) (Option.some.inj hrun)
        simp only at her
        exact Or.inl her.symm
    | dict d =>
        have her := congrArg (fun z => z.2) (Option.some.inj hrun)
        simp only at her
        exact Or.inl her.symm
    | str s2 =>
        have her := congrArg (fun z => z.2) (Option.some.inj hrun)
        simp only at her
        exact Or.inr (Or.inl her.symm)
    | int n2 =>
        have her := congrArg (fun z => z.2) (Option.some.inj hrun)
        simp only at her
        exact Or.inr (Or.inl her.symm)
    | list l =>
        have her := congrArg (fun z => z.2) (Option.some.inj hrun)
        simp only at her
        exact Or.inr (Or.inl her.symm)

/-- The default-parallelism formula on a successful pass, for every
emitted node whose `_parallelism` was unset when the pass began. -/
theorem default_par_spec {fuel : Nat} {h : Heap} {t : Nat} {h' : Heap}
    {n' : List String} {e' : List Emission}
    (hbb : build fuel h t [] [] = some (h', n', e', Option.none)) :
    ∀ e ∈ e', ∀ d0, h e.nodeId = some d0 → d0.parallelism = Option.none →
      e.parallelism = specParallelismE e' d0.parents ∧ 1 ≤ e.parallelism ∧
      (d0.parents = [] → e.parallelism = 1) := by
  obtain ⟨hinv, hle, hn, _, hcf, _⟩ := build_top hbb
  intro e he d0 hd0 hdn
  have hpare : e.parallelism = calcParallelism h' d0.parents :=
    (hcf e he d0 hd0).2.2 hdn
  have hparents : ∀ p ∈ d0.parents, ∃ ep ∈ e', ep.nodeId = p := by
    intro p hp
    obtain ⟨pre, post, hdec⟩ := List.append_of_mem he
    obtain ⟨dx, hdx, _, hpsx, _, _⟩ := hle.2 _ d0 hd0
    obtain ⟨ep, hep, hepid⟩ :=
      hinv.2.2.2 pre e post hdec dx hdx p (by rw [hpsx]; exact hp)
    exact ⟨ep, by rw [hdec]; exact List.mem_append.mpr (Or.inl hep), hepid⟩
  obtain ⟨hspec, hge⟩ := calc_eq_spec hinv hn hparents
  refine ⟨by rw [hpare, hspec], by rw [hpare]; exact hge, fun hnil => ?_⟩
  rw [hpare, hnil]
  rfl

/-- Claim C1: the code has no visited-set, so a node that is a parent of
two downstream nodes is re-visited on the second path; because its stage
name is then already registered, a single `run`-initiated pass
spuriously raises the duplicate-stage-name error on the shared node
after emitting it once, instead of compiling the diamond.  Evaluation of
the pass on the diamond graph (source `src` → maps `m1`, `m2` → join
`j`). -/
theorem c1_shared_parent_spurious_failure :
    Streamlet.run 4 hDiamond 3 (PyVal.str "job") PyVal.none =
      some ([ACall.newBuilder "job",
             ACall.addStage ⟨0, "src", 1, Kind.source, []⟩,
             ACall.addStage ⟨1, "m1", 1, Kind.map, ["src"]⟩],
            some (Err.duplicateStageName "src")) := by decide

/-- Claim C2, counterexample: `run` with the empty string as job name
does not fail with the invalid-job-name error; the empty string passes
the `isinstance(name, str)` check and the topology is built and
submitted. -/
theorem c2_empty_jobname_accepted :
    Streamlet.run 2 hOne 0 (PyVal.str "") PyVal.none =
      some ([ACall.newBuilder "", ACall.addStage ⟨0, "s", 1, Kind.source, []⟩,
             ACall.submit], Option.none) := by decide

/-- Claim C2 (amended): `run(jobName, configuration)` fails with the
invalid-job-name error exactly when `jobName` is `None` or not a string;
every string, including the empty string, passes this validation, and
the pass never raises the invalid-job-name error later. -/
theorem c2_jobname_validation (nameV configV : PyVal) (fuel : Nat) (h : Heap)
    (t : Nat) :
    (isStr nameV = false →
      Streamlet.run fuel h t nameV configV = some ([], some Err.invalidJobName)) ∧
    (∀ s tr er, nameV = PyVal.str s →
      Streamlet.run fuel h t nameV configV = some (tr, er) →
      er ≠ some Err.invalidJobName) := by
  constructor
  · intro hns
    cases nameV with
    | str s => simp [isStr] at hns
    | none => rfl
    | int n => rfl
    | list l => rfl
    | dict dd => rfl
  · intro s tr er hs hrun hcontra
    subst hs
    subst hcontra
    rcases run_err_shape hrun with h1 | h1 | ⟨nm, h1⟩ <;> simp at h1

theorem c2_jobname_validation_witness :
    Streamlet.run 2 hOne 0 (PyVal.int 42) PyVal.none =
      some ([], some Err.invalidJobName) :=
  (c2_jobname_validation (PyVal.int 42) PyVal.none 2 hOne 0).1 (by decide)

/-- Claim C4, counterexample: with a valid job name and a non-mapping
configuration, `run` creates the builder and compiles (emitting the
source stage) before the configuration check fails: the trace contains
the builder creation and a stage emission ahead of the
invalid-configuration error, contradicting the claim that the
validation happens before the builder is created and before any
compilation. -/
theorem c4_builds_before_config_check :
    Streamlet.run 2 hOne 0 (PyVal.str "job") (PyVal.list [1, 2]) =
      some ([ACall.newBuilder "job", ACall.addStage ⟨0, "s", 1, Kind.source, []⟩],
            some Err.invalidConfiguration) := by decide

/-- Claim C4 (amended): with a valid job name and a supplied non-mapping
configuration, `run` fails with the invalid-configuration error, but
only after the builder is created and the whole graph is compiled and
emitted; nothing is submitted. -/
theorem c4_config_checked_after_build (fuel : Nat) (h : Heap) (t : Nat)
    (s : String) (cfg : PyVal) (n' : List String) (ems : List Emission)
    (hb : bRes (build fuel h t [] []) = some (n', ems, Option.none))
    (hnd : isDict cfg = false) (hnn : cfg ≠ PyVal.none) :
    Streamlet.run fuel h t (PyVal.str s) cfg =
      some (ACall.newBuilder s :: ems.map ACall.addStage,
            some Err.invalidConfiguration) := by
  obtain ⟨h', hbb⟩ := bRes_some hb
  simp only [Streamlet.run]
  rw [hbb]
  cases cfg with
  | none => exact absurd rfl hnn
  | dict d => simp [isDict] at hnd
  | str s2 => rfl
  | int n2 => rfl
  | list l => rfl

theorem c4_config_checked_after_build_witness :
    Streamlet.run 2 hOne 0 (PyVal.str "job") (PyVal.list []) =
      some (ACall.newBuilder "job" ::
              ([⟨0, "s", 1, Kind.source, []⟩] : List Emission).map ACall.addStage,
            some Err.invalidConfiguration) :=
  c4_config_checked_after_build 2 hOne 0 "job" (PyVal.list []) ["s"]
    [⟨0, "s", 1, Kind.source, []⟩] (by decide) (by decide) (by decide)

/-- Claim C5, counterexample: the `name` setter applied to the
non-string `42` succeeds (no `ConfigurationError`), and the
`num_partitions` setter applied to `0`, which is not a positive integer,
also succeeds; the claim that they fail is false.  The stored value is
kept verbatim. -/
theorem c5_setters_never_fail :
    isErr (Streamlet.name_set (mkSource "s" (some 1)) (PyVal.int 42)) = false ∧
    isErr (Streamlet.num_partitions_set (mkSource "s" (some 1)) (PyVal.int 0)) = false ∧
    (Streamlet.name_set (mkSource "s" (some 1)) (PyVal.int 42)).toOption.map
        NodeData.pname = some (PyVal.int 42) := by decide

/-- Claim C5 (amended): the `name` / `num_partitions` property setters
perform no validation at all: for every input value, including
non-strings and non-positive integers, they return successfully and
store the value verbatim in `_name` / `_num_partitions`; they leave the
compile-relevant `_stage_name` / `_parallelism` fields untouched. -/
theorem c5_setters_store_verbatim (d : NodeData) (v w : PyVal) :
    Streamlet.name_set d v = Except.ok { d with pname := v } ∧
    Streamlet.num_partitions_set d w = Except.ok { d with num_partitions := w } ∧
    (Streamlet.name_set d v).toOption.map
        (fun x => (x.stage_name, x.parallelism)) =
      some (d.stage_name, d.parallelism) ∧
    (Streamlet.num_partitions_set d w).toOption.map
        (fun x => (x.stage_name, x.parallelism)) =
      some (d.stage_name, d.parallelism) :=
  ⟨rfl, rfl, rfl, rfl⟩

/-- Claim C7: `reduce_by_window(time_window, reduce_function,
stage_name)` constructs exactly the node that
`reduce_by_key_and_window(time_window, reduce_function, stage_name,
parallelism=1)` constructs — same variant, parents, window, function and
name — with parallelism fixed at `1`. -/
theorem c7_reduce_by_window_equiv (s : Nat) (tw : TimeWindow) (f : Nat)
    (sn : Option String) :
    Streamlet.reduce_by_window s tw f sn =
        Streamlet.reduce_by_key_and_window s tw f sn (some 1) ∧
      (Streamlet.reduce_by_window s tw f sn).parallelism = some 1 :=
  ⟨rfl, rfl⟩

/-- Claim C3, counterexample: a node whose `_parallelism` was explicitly
set to `0` compiles successfully and is emitted with resolved
parallelism `0`, so it is not the case that every resolved parallelism
is at least `1`. -/
theorem c3_zero_parallelism_emitted :
    bRes (build 1 hPar0 0 [] []) =
        some (["s"], [⟨0, "s", 0, Kind.source, []⟩], Option.none) ∧
      ¬ (1 ≤ (0 : Int)) := ⟨by decide, by decide⟩

/-- Claim C3 (amended): on a successful pass, every emitted node whose
parallelism was not explicitly set resolves to `max(1, max of its
parents' resolved parallelisms)` — in particular to `1` when it has no
parents — and every such default-resolved parallelism is at least `1`.
(Nodes with an explicitly set parallelism keep that value verbatim, even
when it is below `1`.) -/
theorem c3_default_parallelism (fuel : Nat) (h : Heap) (t : Nat)
    (n' : List String) (ems : List Emission)
    (hb : bRes (build fuel h t [] []) = some (n', ems, Option.none)) :
    ∀ e ∈ ems, ∀ d0, h e.nodeId = some d0 → d0.parallelism = Option.none →
      e.parallelism = specParallelismE ems d0.parents ∧ 1 ≤ e.parallelism ∧
      (d0.parents = [] → e.parallelism = 1) := by
  obtain ⟨h', hbb⟩ := bRes_some hb
  exact default_par_spec hbb

theorem c3_default_parallelism_witness :
    (⟨1, "b", 2, Kind.map, ["a"]⟩ : Emission).parallelism =
        specParallelismE
          [⟨0, "a", 2, Kind.source, []⟩, ⟨1, "b", 2, Kind.map, ["a"]⟩]
          (mkMapNode 0 (some "b")).parents ∧
      1 ≤ (⟨1, "b", 2, Kind.map, ["a"]⟩ : Emission).parallelism ∧
      ((mkMapNode 0 (some "b")).parents = [] →
        (⟨1, "b", 2, Kind.map, ["a"]⟩ : Emission).parallelism = 1) :=
  c3_default_parallelism 2 hChain 1 ["a", "b"]
    [⟨0, "a", 2, Kind.source, []⟩, ⟨1, "b", 2, Kind.map, ["a"]⟩] (by decide)
    ⟨1, "b", 2, Kind.map, ["a"]⟩ (by decide) (mkMapNode 0 (some "b"))
    (by decide) (by decide)

/-- Claim C6: on a pass that returns normally, the emitted stage names
are pairwise distinct; the only exception the pass ever raises is the
duplicate-stage-name error, and it always carries a name that is in the
final name registry; and no graph in which two distinct reachable nodes
carry the same explicit stage name can compile successfully. -/
theorem c6_duplicate_names (fuel : Nat) (h : Heap) (t : Nat)
    (n' : List String) (ems : List Emission) (erO : Option Err)
    (hb : bRes (build fuel h t [] []) = some (n', ems, erO)) :
    (erO = Option.none → (ems.map Emission.name).Nodup) ∧
    (∀ er, erO = some er → ∃ nm, er = Err.duplicateStageName nm ∧ nm ∈ n') ∧
    (erO = Option.none →
      ∀ i j di dj nm, i ≠ j → h i = some di → h j = some dj →
        di.stage_name = some nm → dj.stage_name = some nm →
        Reach h t i → Reach h t j → False) := by
  obtain ⟨h', hbb⟩ := bRes_some hb
  refine ⟨?_, ?_, ?_⟩
  · intro hnone
    subst hnone
    obtain ⟨hinv, _, hn, _, _, _⟩ := build_top hbb
    rw [← hn]
    exact hinv.1
  · intro er her
    subst her
    exact (basic_build fuel h t [] [] _ hbb).2.2.2 er rfl
  · intro hnone i j di dj nm hij hdi hdj hsni hsnj hri hrj
    subst hnone
    obtain ⟨hinv, hle, hn, _, _, hreach⟩ := build_top hbb
    obtain ⟨ei, hei, heiid⟩ := hreach i hri
    obtain ⟨ej, hej, hejid⟩ := hreach j hrj
    have hname : ∀ (x : Emission), x ∈ ems → ∀ k dk, x.nodeId = k →
        h k = some dk → dk.stage_name = some nm → x.name = nm := by
      intro x hx k dk hxk hdk hsnk
      obtain ⟨d', hd', _, _, hs', _⟩ := hle.2 k dk hdk
      obtain ⟨dx, hdx, hdxs, _⟩ := hinv.2.1 x hx
      rw [hxk, hd'] at hdx
      injection hdx with hdx
      have hsome := hs' nm hsnk
      rw [hdx] at hsome
      rw [hdxs] at hsome
      injection hsome with hsome
    have hin : ei.name = nm := hname ei hei i di heiid hdi hsni
    have hjn : ej.name = nm := hname ej hej j dj hejid hdj hsnj
    have hmapnodup : (ems.map Emission.name).Nodup := by rw [← hn]; exact hinv.1
    have heiej : ei = ej :=
      List.inj_on_of_nodup_map hmapnodup hei hej (by rw [hin, hjn])
    exact hij (by rw [← heiid, ← hejid, heiej])

theorem c6_duplicate_names_witness :
    (([⟨0, "a", 2, Kind.source, []⟩, ⟨1, "b", 2, Kind.map, ["a"]⟩] :
        List Emission).map Emission.name).Nodup :=
  (c6_duplicate_names 2 hChain 1 ["a", "b"]
      [⟨0, "a", 2, Kind.source, []⟩, ⟨1, "b", 2, Kind.map, ["a"]⟩] Option.none
      (by decide)).1 rfl

/-- Claim C8: on a successful pass the emission sequence is in
dependency order — wherever a stage sits in the sequence, every parent
of its node was emitted strictly earlier — and a node's default
parallelism is computed from its parents' already-resolved values, as
recorded in the emission sequence. -/
theorem c8_dependency_order (fuel : Nat) (h : Heap) (t : Nat)
    (n' : List String) (ems : List Emission)
    (hb : bRes (build fuel h t [] []) = some (n', ems, Option.none)) :
    GoodOrder h ems ∧
    (∀ e ∈ ems, ∀ d0, h e.nodeId = some d0 → d0.parallelism = Option.none →
      e.parallelism = specParallelismE ems d0.parents) := by
  obtain ⟨h', hbb⟩ := bRes_some hb
  obtain ⟨hinv, hle, _, _, _, _⟩ := build_top hbb
  exact ⟨goodOrder_back hle hinv.2.2.2,
    fun e he d0 hd0 hdn => (default_par_spec hbb e he d0 hd0 hdn).1⟩

theorem c8_dependency_order_witness :
    GoodOrder hChain [⟨0, "a", 2, Kind.source, []⟩, ⟨1, "b", 2, Kind.map, ["a"]⟩] :=
  (c8_dependency_order 2 hChain 1 ["a", "b"]
      [⟨0, "a", 2, Kind.source, []⟩, ⟨1, "b", 2, Kind.map, ["a"]⟩] (by decide)).1

/-- Claim C9: `join` records its parents as `[self, other]`, left
operand first, and on the spec's two-source scenario (sources `s1` with
parallelism 2 and `s2` with parallelism 3, joined with no explicit
overrides) the join stage is emitted with parallelism `3` and upstream
references `["s1", "s2"]` in that left/right order. -/
theorem c9_join_parent_order :
    (∀ (s t : Nat) (tw : TimeWindow) (sn : Option String) (par : Option Int),
      (Streamlet.join s t tw sn par).parents = [s, t]) ∧
    bRes (build 2 hJoin 2 [] []) =
      some (["s1", "s2", "join1"],
            [⟨0, "s1", 2, Kind.source, []⟩, ⟨1, "s2", 3, Kind.source, []⟩,
             ⟨2, "join1", 3, Kind.join, ["s1", "s2"]⟩], Option.none) :=
  ⟨fun s t tw sn par => rfl, by decide⟩

theorem buildSeq_cons
    (step : Heap → Nat → List String → List Emission → Option BuildRes)
    (i : Nat) (rest : List Nat) (h : Heap) (n : List String) (e : List Emission) :
    buildSeq step (i :: rest) h n e =
      match step h i n e with
      | Option.none => Option.none
      | some (h1, n1, e1, some er) => some (h1, n1, e1, some er)
      | some (h1, n1, e1, Option.none) => buildSeq step rest h1 n1 e1 := rfl

theorem build_succ (fuel : Nat) (h : Heap) (i : Nat) (n : List String)
    (e : List Emission) :
    build (fuel + 1) h i n e =
      match h i with
      | Option.none => Option.none
      | some nd =>
          match buildSeq (build fuel) nd.parents h n e with
          | Option.none => Option.none
          | some (h1, n1, e1, some er) => some (h1, n1, e1, some er)
          | some (h1, n1, e1, Option.none) =>
              match h1 i with
              | Option.none => Option.none
              | some nd1 => some (buildBody h1 i nd1 n1 e1) := rfl

theorem coreAgree_lookup {ha hb : Heap} (hc : coreAgree ha hb) (i : Nat) :
    (ha i = Option.none ∧ hb i = Option.none) ∨
    (∃ da db, ha i = some da ∧ hb i = some db ∧ core da = core db) := by
  have hci := hc i
  cases hda : ha i with
  | none =>
      cases hdb : hb i with
      | none => exact Or.inl ⟨rfl, rfl⟩
      | some db => rw [hda, hdb] at hci; exact absurd hci (by simp)
  | some da =>
      cases hdb : hb i with
      | none => rw [hda, hdb] at hci; exact absurd hci (by simp)
      | some db =>
          rw [hda, hdb] at hci
          exact Or.inr ⟨da, db, rfl, rfl, Option.some.inj hci⟩

theorem coreAgree_parOf {ha hb : Heap} (hc : coreAgree ha hb) (p : Nat) :
    parOf ha p = parOf hb p := by
  rcases coreAgree_lookup hc p with ⟨h1, h2⟩ | ⟨da, db, h1, h2, h3⟩
  · unfold parOf; rw [h1, h2]
  · unfold parOf
    rw [h1, h2]
    exact congrArg CoreData.parallelism h3

theorem coreAgree_calc {ha hb : Heap} (hc : coreAgree ha hb) (ps : List Nat) :
    calcParallelism ha ps = calcParallelism hb ps :=
  calcFold_congr ps (fun p _ => coreAgree_parOf hc p) 1

theorem coreAgree_upstream {ha hb : Heap} (hc : coreAgree ha hb) (ps : List Nat) :
    upstreamNames ha ps = upstreamNames hb ps := by
  unfold upstreamNames
  refine List.map_congr_left ?_
  intro p _
  rcases coreAgree_lookup hc p with ⟨h1, h2⟩ | ⟨da, db, h1, h2, h3⟩
  · rw [h1, h2]
  · rw [h1, h2]
    show da.stage_name.getD "" = db.stage_name.getD ""
    have hsn : da.stage_name = db.stage_name := congrArg CoreData.stage_name h3
    rw [hsn]

theorem coreAgree_hset {ha hb : Heap} (hc : coreAgree ha hb) (i : Nat)
    {da db : NodeData} (hd : core da = core db) :
    coreAgree (hset ha i da) (hset hb i db) := by
  intro j
  by_cases hji : j = i
  · simp [hset, hji, hd]
  · simp only [hset, if_neg hji]
    exact hc j

theorem buildBody_core {h1a h1b : Heap} {i : Nat} {na nb : NodeData}
    (n1 : List String) (e1 : List Emission)
    (hca : coreAgree h1a h1b) (hcd : core na = core nb) :
    ∃ h2a h2b n2 e2 er, buildBody h1a i na n1 e1 = (h2a, n2, e2, er) ∧
      buildBody h1b i nb n1 e1 = (h2b, n2, e2, er) ∧ coreAgree h2a h2b := by
  have hp : na.parallelism = nb.parallelism := congrArg CoreData.parallelism hcd
  have hsn : na.stage_name = nb.stage_name := congrArg CoreData.stage_name hcd
  have hk : na.kind = nb.kind := congrArg CoreData.kind hcd
  have hps : na.parents = nb.parents := congrArg CoreData.parents hcd
  have hw : na.window = nb.window := congrArg CoreData.window hcd
  have hf : na.func = nb.func := congrArg CoreData.func hcd
  obtain ⟨p1, nm1, ha1, ha2, ha3, ha4, houta⟩ := buildBody_cases h1a i na n1 e1
  obtain ⟨p2, nm2, hb1, hb2, hb3, hb4, houtb⟩ := buildBody_cases h1b i nb n1 e1
  have hpe : p1 = p2 := by
    cases hnap : na.parallelism with
    | some q => rw [ha3 q hnap, hb3 q (by rw [← hp]; exact hnap)]
    | none =>
        rw [ha4 hnap, hb4 (by rw [← hp]; exact hnap), ← hps]
        exact coreAgree_calc hca na.parents
  have hne : nm1 = nm2 := by
    cases hnas : na.stage_name with
    | some s => rw [ha1 s hnas, hb1 s (by rw [← hsn]; exact hnas)]
    | none => rw [ha2 hnas, hb2 (by rw [← hsn]; exact hnas), hk]
  have hcore : core { na with parallelism := some p1, stage_name := some nm1 } =
      core { nb with parallelism := some p2, stage_name := some nm2 } := by
    simp [core, hk, hps, hne, hpe, hw, hf]
  have hcag : coreAgree
      (hset h1a i { na with parallelism := some p1, stage_name := some nm1 })
      (hset h1b i { nb with parallelism := some p2, stage_name := some nm2 }) :=
    coreAgree_hset hca i hcore
  rcases houta with ⟨hma, heqa⟩ | ⟨hma, heqa⟩ <;>
    rcases houtb with ⟨hmb, heqb⟩ | ⟨hmb, heqb⟩
  · refine ⟨hset h1a i { na with parallelism := some p1, stage_name := some nm1 },
      hset h1b i { nb with parallelism := some p2, stage_name := some nm2 },
      n1, e1, some (Err.duplicateStageName nm1), heqa, ?_, hcag⟩
    rw [heqb, hne]
  · exact absurd (hne ▸ hma) hmb
  · exact absurd (hne.symm ▸ hmb) hma
  · have hup0 : upstreamNames
        (hset h1a i { na with parallelism := some p1, stage_name := some nm1 })
        na.parents =
      upstreamNames
        (hset h1b i { nb with parallelism := some p2, stage_name := some nm2 })
        na.parents := coreAgree_upstream hcag na.parents
    have hup : upstreamNames
        (hset h1a i { na with parallelism := some p1, stage_name := some nm1 })
        na.parents =
      upstreamNames
        (hset h1b i { nb with parallelism := some p2, stage_name := some nm2 })
        nb.parents := by
      rw [hup0]
      exact congrArg _ hps
    refine ⟨hset h1a i { na with parallelism := some p1, stage_name := some nm1 },
      hset h1b i { nb with parallelism := some p2, stage_name := some nm2 },
      n1 ++ [nm1],
      e1 ++ [⟨i, nm1, p1, na.kind,
        upstreamNames
          (hset h1a i { na with parallelism := some p1, stage_name := some nm1 })
          na.parents⟩],
      Option.none, heqa, ?_, hcag⟩
    rw [heqb, hup, hne, hpe, hk]

theorem seq_core
    (stepa stepb : Heap → Nat → List String → List Emission → Option BuildRes)
    (hstep : ∀ ha hb i n e, coreAgree ha hb →
      (stepa ha i n e = Option.none ∧ stepb hb i n e = Option.none) ∨
      (∃ h1a h1b n1 e1 er, stepa ha i n e = some (h1a, n1, e1, er) ∧
        stepb hb i n e = some (h1b, n1, e1, er) ∧ coreAgree h1a h1b)) :
    ∀ (is : List Nat) (ha hb : Heap) (n : List String) (e : List Emission),
      coreAgree ha hb →
      (buildSeq stepa is ha n e = Option.none ∧
        buildSeq stepb is hb n e = Option.none) ∨
      (∃ h1a h1b n1 e1 er, buildSeq stepa is ha n e = some (h1a, n1, e1, er) ∧
        buildSeq stepb is hb n e = some (h1b, n1, e1, er) ∧ coreAgree h1a h1b) := by
  intro is
  induction is with
  | nil =>
      intro ha hb n e hc
      exact Or.inr ⟨ha, hb, n, e, Option.none, rfl, rfl, hc⟩
  | cons i rest ih =>
      intro ha hb n e hc
      rcases hstep ha hb i n e hc with ⟨hna, hnb⟩ |
        ⟨h1a, h1b, n1, e1, er, hsa, hsb, hc1⟩
      · left
        constructor
        · rw [buildSeq_cons, hna]
        · rw [buildSeq_cons, hnb]
      · cases er with
        | some eb =>
            right
            refine ⟨h1a, h1b, n1, e1, some eb, ?_, ?_, hc1⟩
            · rw [buildSeq_cons, hsa]
            · rw [buildSeq_cons, hsb]
        | none =>
            rcases ih h1a h1b n1 e1 hc1 with ⟨hra, hrb⟩ |
              ⟨h2a, h2b, n2, e2, er2, hba, hbb2, hc2⟩
            · left
              constructor
              · rw [buildSeq_cons, hsa]; exact hra
              · rw [buildSeq_cons, hsb]; exact hrb
            · right
              refine ⟨h2a, h2b, n2, e2, er2, ?_, ?_, hc2⟩
              · rw [buildSeq_cons, hsa]; exact hba
              · rw [buildSeq_cons, hsb]; exact hbb2

theorem build_eval1 {fuel : Nat} {ha : Heap} {i : Nat} {n : List String}
    {e : List Emission} {da : NodeData} (hda : ha i = some da) :
    build (fuel + 1) ha i n e =
      match buildSeq (build fuel) da.parents ha n e with
      | Option.none => Option.none
      | some (h1, n1, e1, some er) => some (h1, n1, e1, some er)
      | some (h1, n1, e1, Option.none) =>
          match h1 i with
          | Option.none => Option.none
          | some nd1 => some (buildBody h1 i nd1 n1 e1) := by
  rw [build_succ, hda]

theorem build_eval_noneSeq {fuel : Nat} {ha : Heap} {i : Nat} {n : List String}
    {e : List Emission} {da : NodeData} (hda : ha i = some da)
    (hs : buildSeq (build fuel) da.parents ha n e = Option.none) :
    build (fuel + 1) ha i n e = Option.none := by
  rw [build_eval1 hda, hs]

theorem build_eval_err {fuel : Nat} {ha : Heap} {i : Nat} {n : List String}
    {e : List Emission} {da : NodeData} {h1 : Heap} {n1 : List String}
    {e1 : List Emission} {er : Err} (hda : ha i = some da)
    (hs : buildSeq (build fuel) da.parents ha n e = some (h1, n1, e1, some er)) :
    build (fuel + 1) ha i n e = some (h1, n1, e1, some er) := by
  rw [build_eval1 hda, hs]

theorem build_eval2 {fuel : Nat} {ha : Heap} {i : Nat} {n : List String}
    {e : List Emission} {da : NodeData} {h1 : Heap} {n1 : List String}
    {e1 : List Emission} (hda : ha i = some da)
    (hs : buildSeq (build fuel) da.parents ha n e = some (h1, n1, e1, Option.none)) :
    build (fuel + 1) ha i n e =
      match h1 i with
      | Option.none => Option.none
      | some nd1 => some (buildBody h1 i nd1 n1 e1) := by
  rw [build_eval1 hda, hs]

theorem build_eval_noneAt {fuel : Nat} {ha : Heap} {i : Nat} {n : List String}
    {e : List Emission} {da : NodeData} {h1 : Heap} {n1 : List String}
    {e1 : List Emission} (hda : ha i = some da)
    (hs : buildSeq (build fuel) da.parents ha n e = some (h1, n1, e1, Option.none))
    (h1d : h1 i = Option.none) :
    build (fuel + 1) ha i n e = Option.none := by
  rw [build_eval2 hda hs, h1d]

theorem build_eval_body {fuel : Nat} {ha : Heap} {i : Nat} {n : List String}
    {e : List Emission} {da : NodeData} {h1 : Heap} {n1 : List String}
    {e1 : List Emission} {nd1 : NodeData} (hda : ha i = some da)
    (hs : buildSeq (build fuel) da.parents ha n e = some (h1, n1, e1, Option.none))
    (h1d : h1 i = some nd1) :
    build (fuel + 1) ha i n e = some (buildBody h1 i nd1 n1 e1) := by
  rw [build_eval2 hda hs, h1d]

theorem build_core :
    ∀ (fuel : Nat) (ha hb : Heap), coreAgree ha hb →
      ∀ (i : Nat) (n : List String) (e : List Emission),
      (build fuel ha i n e = Option.none ∧ build fuel hb i n e = Option.none) ∨
      (∃ h1a h1b n1 e1 er, build fuel ha i n e = some (h1a, n1, e1, er) ∧
        build fuel hb i n e = some (h1b, n1, e1, er) ∧ coreAgree h1a h1b) := by
  intro fuel
  induction fuel with
  | zero => intro ha hb hc i n e; exact Or.inl ⟨rfl, rfl⟩
  | succ fuel ih =>
      intro ha hb hc i n e
      rcases coreAgree_lookup hc i with ⟨hna, hnb⟩ | ⟨da, db, hda, hdb, hcd⟩
      · left
        constructor
        · rw [build_succ, hna]
        · rw [build_succ, hnb]
      · have hps : da.parents = db.parents := congrArg CoreData.parents hcd
        have hseq := seq_core (build fuel) (build fuel)
          (fun ha' hb' i' n' e' hc' => ih ha' hb' hc' i' n' e') da.parents
          ha hb n e hc
        rcases hseq with ⟨hsa, hsb⟩ | ⟨h1a, h1b, n1, e1, er, hsa, hsb, hc1⟩
        · exact Or.inl ⟨build_eval_noneSeq hda hsa,
            build_eval_noneSeq hdb (by rw [← hps]; exact hsb)⟩
        · have hsb2 : buildSeq (build fuel) db.parents hb n e =
              some (h1b, n1, e1, er) := by rw [← hps]; exact hsb
          cases er with
          | some eb =>
              exact Or.inr ⟨h1a, h1b, n1, e1, some eb, build_eval_err hda hsa,
                build_eval_err hdb hsb2, hc1⟩
          | none =>
              rcases coreAgree_lookup hc1 i with ⟨h1na, h1nb⟩ |
                ⟨d1a, d1b, h1da, h1db, hc1d⟩
              · exact Or.inl ⟨build_eval_noneAt hda hsa h1na,
                  build_eval_noneAt hdb hsb2 h1nb⟩
              · obtain ⟨h2a, h2b, n2, e2, er2, hba, hbb2, hc2⟩ :=
                  buildBody_core n1 e1 hc1 hc1d
                refine Or.inr ⟨h2a, h2b, n2, e2, er2, ?_, ?_, hc2⟩
                · rw [build_eval_body hda hsa h1da]
                  exact congrArg some hba
                · rw [build_eval_body hdb hsb2 h1db]
                  exact congrArg some hbb2

/-- Claim C10: the public `name` / `num_partitions` property setters
touch only the `_name` / `_num_partitions` attributes, which are outside
the compile-relevant core of a node record, and compilation reads only
that core; hence two passes over heaps that agree on the core — in
particular a heap and the same heap after any use of those setters —
produce identical stage names, parallelisms, emission sequences, and
outcome. -/
theorem c10_public_props_no_influence :
    (∀ (h : Heap) (i : Nat) (v : PyVal),
      coreAgree h (heapSetName h i v) ∧ coreAgree h (heapSetNumPartitions h i v)) ∧
    (∀ (h h2 : Heap), coreAgree h h2 → ∀ (fuel : Nat) (t : Nat),
      bRes (build fuel h t [] []) = bRes (build fuel h2 t [] [])) := by
  constructor
  · intro h i v
    refine ⟨fun j => ?_, fun j => ?_⟩
    · unfold heapSetName
      by_cases hji : j = i
      · simp only [hji, if_pos rfl, Option.map_map]
        cases hd : h i with
        | none => rfl
        | some d => rfl
      · simp [hji]
    · unfold heapSetNumPartitions
      by_cases hji : j = i
      · simp only [hji, if_pos rfl, Option.map_map]
        cases hd : h i with
        | none => rfl
        | some d => rfl
      · simp [hji]
  · intro h h2 hc fuel t
    rcases build_core fuel h h2 hc t [] [] with ⟨hna, hnb⟩ |
      ⟨h1a, h1b, n1, e1, er, hsa, hsb, _⟩
    · rw [hna, hnb]
    · rw [hsa, hsb]
      rfl

theorem c10_public_props_no_influence_witness :
    bRes (build 2 hChain 1 [] []) =
      bRes (build 2 (heapSetName hChain 0 (PyVal.str "zzz")) 1 [] []) :=
  c10_public_props_no_influence.2 hChain (heapSetName hChain 0 (PyVal.str "zzz"))
    (c10_public_props_no_influence.1 hChain 0 (PyVal.str "zzz")).1 2 1
